import Mathlib

/-
Verification of the repo-cloak Anonymization and Mapping Engine.

Shallow embedding of the core of the repository:
  anonymizer.js   : createAnonymizer, createDeanonymizer, matchCase, anonymizePath
  copier.js       : copyFileWithTransform, copyFiles (plain and path-renaming variant,
                    with the copier-internal anonymizePath and matchCase)
  crypto.js       : encrypt, decrypt, encryptReplacements
  scanner.js      : isBinaryFile
  mapper.js       : createMapping, mergeMapping (the encrypting generation of mapper.js
                    is absent from the sources; those two are modelled from the spec)

Modelling conventions.
  JavaScript strings are lists of Unicode code points (List Nat).  The case
  operations toUpperCase and toLowerCase are modelled on the ASCII range, which
  is the range the case-preserving substitution engine manipulates.
  The case-insensitive global regex replacement over an escaped literal pattern
  (new RegExp(escapeRegex(original), "gi") together with String.replace and a
  callback) is modelled by an explicit left-to-right greedy scan: at each
  position the scan either consumes a case-insensitive occurrence of the
  pattern and emits the callback value, or moves on by one character.  Regex
  escaping makes the pattern a literal string, so no further regex structure
  needs to be modelled.  A replacement given as a string (rather than as a
  callback) passes through the dollar substitution of String.replace
  (GetSubstitution); the escaped literal pattern has no capture groups, so
  only the dollar-dollar, whole-match, before-match and after-match escapes
  can fire, and a dollar followed by a digit stays literal text, as the
  JavaScript specification prescribes for a group that does not exist.
-/

namespace RepoCloak

/-- ASCII model of the JavaScript per-character toLowerCase. -/
def lowerChar (c : Nat) : Nat := if 65 ≤ c ∧ c ≤ 90 then c + 32 else c

/-- ASCII model of the JavaScript per-character toUpperCase. -/
def upperChar (c : Nat) : Nat := if 97 ≤ c ∧ c ≤ 122 then c - 32 else c

/-- Model of String.prototype.toLowerCase. -/
def toLowerStr (s : List Nat) : List Nat := s.map lowerChar

/-- Model of String.prototype.toUpperCase. -/
def toUpperStr (s : List Nat) : List Nat := s.map upperChar

/-- An ASCII letter (either case). -/
def isLetterB (c : Nat) : Bool := (65 ≤ c && c ≤ 90) || (97 ≤ c && c ≤ 122)

/-- Convenience: a Lean string literal as a list of code points. -/
def str (s : String) : List Nat := s.data.map Char.toNat

/-- One substitution rule, the KeywordReplacement of the data model. -/
structure Replacement where
  original : List Nat
  replacement : List Nat
deriving DecidableEq, Repr

/-- replacement.charAt(0).toUpperCase() + replacement.slice(1).toLowerCase():
first character upper-cased, remainder lower-cased. -/
def titleCase : List Nat → List Nat
  | [] => []
  | c :: cs => upperChar c :: toLowerStr cs

/-- replacement.charAt(0).toUpperCase() + replacement.slice(1): first
character upper-cased, remainder untouched (the copier-internal variant). -/
def titleCaseCopier : List Nat → List Nat
  | [] => []
  | c :: cs => upperChar c :: cs

/-- matchCase from anonymizer.js: adjust the case of the replacement to the
case pattern of the matched occurrence.  The branches are tested in the order
of the source: all-upper, then all-lower, then first-character-upper. -/
def matchCase (m repl : List Nat) : List Nat :=
  if toUpperStr m = m then toUpperStr repl
  else if toLowerStr m = m then toLowerStr repl
  else if upperChar (m.headD 0) = m.headD 0 then titleCase repl
  else repl

/-- matchCase of the copier-internal copy in copier.js (path renaming variant):
identical except that the first-character-upper branch does not lower-case the
remainder of the replacement. -/
def matchCaseCopier (m repl : List Nat) : List Nat :=
  if toUpperStr m = m then toUpperStr repl
  else if toLowerStr m = m then toLowerStr repl
  else if upperChar (m.headD 0) = m.headD 0 then titleCaseCopier repl
  else repl

/-- The pattern, compared case-insensitively, starts the string. -/
def ciPrefixB (pat s : List Nat) : Bool :=
  decide (pat.length ≤ s.length) && decide (toLowerStr (s.take pat.length) = toLowerStr pat)

/-- The scan underlying String.replace with a global case-insensitive literal
pattern: the first argument counts characters still to be skipped because they
belong to the occurrence just replaced. -/
def replaceCIGo (pat : List Nat) (f : List Nat → List Nat) : Nat → List Nat → List Nat
  | _, [] => []
  | k + 1, _ :: cs => replaceCIGo pat f k cs
  | 0, c :: cs =>
    if ciPrefixB pat (c :: cs) then
      f ((c :: cs).take pat.length) ++ replaceCIGo pat f (pat.length - 1) cs
    else
      c :: replaceCIGo pat f 0 cs

/-- Model of text.replace(new RegExp(escapeRegex(pat), "gi"), f).  An empty
pattern matches once at every position, as the JavaScript global regex does. -/
def replaceCI (pat : List Nat) (f : List Nat → List Nat) (s : List Nat) : List Nat :=
  if pat = [] then s.foldr (fun c acc => f [] ++ c :: acc) (f [])
  else replaceCIGo pat f 0 s

/-- One pass of the loop body of createAnonymizer (case-insensitive branch). -/
def applyRule (content : List Nat) (r : Replacement) : List Nat :=
  replaceCI r.original (fun m => matchCase m r.replacement) content

/-- createAnonymizer from anonymizer.js (default options, caseSensitive false,
the only configuration used by the commands): rules applied sequentially in
list order, each replacing case-insensitively with case adjustment. -/
def createAnonymizer (replacements : List Replacement) : List Nat → List Nat :=
  fun content => replacements.foldl applyRule content

/-- createDeanonymizer from anonymizer.js: swap original and replacement in
every rule and reapply the same algorithm. -/
def createDeanonymizer (replacements : List Replacement) : List Nat → List Nat :=
  createAnonymizer (replacements.map fun r => ⟨r.replacement, r.original⟩)

/-- GetSubstitution for a string replacement of String.replace over a
capture-free (escaped literal) pattern: a dollar (code 36) followed by a
second dollar yields a literal dollar, followed by an ampersand (code 38)
yields the matched text, followed by a grave accent (code 96) yields the part
of the subject before the match, followed by code 39 yields the part after
the match; any other dollar, including one before a digit (no capture group
exists), and every other character stay literal. -/
def expandDollar (before matched after : List Nat) : List Nat → List Nat
  | [] => []
  | [c] => [c]
  | c :: d :: rest =>
    if c = 36 then
      if d = 36 then 36 :: expandDollar before matched after rest
      else if d = 38 then matched ++ expandDollar before matched after rest
      else if d = 96 then before ++ expandDollar before matched after rest
      else if d = 39 then after ++ expandDollar before matched after rest
      else c :: expandDollar before matched after (d :: rest)
    else c :: expandDollar before matched after (d :: rest)

/-- The scan of String.replace with a global case-insensitive literal pattern
and a string replacement: like replaceCIGo, but the position of the scan in
the subject S is carried along so that the before-match and after-match
dollar escapes can be expanded against S. -/
def replaceStrGo (pat repl S : List Nat) : Nat → Nat → List Nat → List Nat
  | _, _, [] => []
  | i, k + 1, _ :: cs => replaceStrGo pat repl S (i + 1) k cs
  | i, 0, c :: cs =>
    if ciPrefixB pat (c :: cs) then
      expandDollar (S.take i) ((c :: cs).take pat.length) (S.drop (i + pat.length)) repl
        ++ replaceStrGo pat repl S (i + 1) (pat.length - 1) cs
    else
      c :: replaceStrGo pat repl S (i + 1) 0 cs

/-- The empty-pattern case of the string-replacement scan: the global empty
regex matches once at every position of the subject. -/
def replaceStrEmpty (repl S : List Nat) : Nat → List Nat → List Nat
  | i, [] => expandDollar (S.take i) [] (S.drop i) repl
  | i, c :: cs => expandDollar (S.take i) [] (S.drop i) repl ++ c :: replaceStrEmpty repl S (i + 1) cs

/-- Model of text.replace(new RegExp(escapeRegex(pat), "gi"), repl) with repl
a plain string: as replaceCI, but the inserted text is the dollar expansion
of the replacement at each match. -/
def replaceStr (pat repl s : List Nat) : List Nat :=
  if pat = [] then replaceStrEmpty repl s 0 s
  else replaceStrGo pat repl s 0 0 s

/-- anonymizePath from anonymizer.js: the same sequential case-insensitive
global replacement, but with the replacement as a plain string
(result.replace(regex, replacement)): no matchCase call, and the string goes
through the dollar substitution of String.replace. -/
def anonymizePath (filePath : List Nat) (replacements : List Replacement) : List Nat :=
  replacements.foldl
    (fun acc r => replaceStr r.original r.replacement acc) filePath

/-- The copier-internal anonymizePath of copier.js (path renaming variant):
like the content transform but with the copier-internal matchCase. -/
def anonymizePathCopier (relativePath : List Nat) (replacements : List Replacement) : List Nat :=
  replacements.foldl
    (fun acc r => replaceCI r.original (fun m => matchCaseCopier m r.replacement) acc)
    relativePath

/-! ## Crypto Provider (crypto.js)

encrypt and decrypt are embedded around an idealized authenticated cipher:
scrypt is modelled as an ideal (collision-free) key derivation, the GCM
keystream as the identity (confidentiality is not what the claims test), and
the GCM authentication tag as a tag that binds key, nonce and ciphertext
exactly (an injective encoding of the triple).  The hex encoding of the three
components is modelled by an injective, colon-free textual encoding of
arbitrary code-point sequences.  The format handling, the three-part split on
the colon, the falsy-part check, and the catch-all that turns every failure
into the null sentinel are embedded from the source. -/

/-- The digit characters of one element of a byte sequence in the textual
encoding of the model (the digit 1, code 49, repeated; what matters for the
claims is that the encoding is injective and never produces a colon). -/
def natHex (n : Nat) : List Nat := List.replicate n 49

/-- Read the digit characters of one element back. -/
def unhex (l : List Nat) : Nat := l.length

/-- Buffer.toString("hex") modelled as an injective colon-free textual
encoding: each element as its digits, terminated by the letter g (code 103). -/
def hexEncode (l : List Nat) : List Nat := l.flatMap fun n => natHex n ++ [103]

/-- Inverse of hexEncode: collect digits up to each terminator. -/
def hexDecodeGo (acc : List Nat) : List Nat → List Nat
  | [] => []
  | c :: r => if c = 103 then unhex acc.reverse :: hexDecodeGo [] r else hexDecodeGo (c :: acc) r

/-- Buffer.from(st, "hex") for strings produced by hexEncode. -/
def hexDecode (l : List Nat) : List Nat := hexDecodeGo [] l

/-- String.prototype.split on a separator code point. -/
def splitSep (sep : Nat) : List Nat → List (List Nat)
  | [] => [[]]
  | c :: r =>
    if c = sep then [] :: splitSep sep r
    else
      match splitSep sep r with
      | p :: rest => (c :: p) :: rest
      | [] => [[c]]

/-- scryptSync(secret, "repo-cloak-salt", 32) modelled as an ideal key
derivation: collision-freeness of scrypt is modelled by injectivity. -/
def deriveKey (secret : List Nat) : List Nat := secret

/-- The GCM authentication tag, modelled as an ideal tag binding the key, the
nonce and the ciphertext (a length-prefixed, hence injective, encoding). -/
def tagOf (key iv ct : List Nat) : List Nat :=
  key.length :: (key ++ (iv.length :: (iv ++ ct)))

/-- encrypt from crypto.js.  The fresh random 16-byte nonce drawn by
randomBytes(16) is passed in as the iv argument; the returned string is
iv:authTag:ciphertext with hex-encoded, colon-delimited components, and the
ideal keystream leaves the ciphertext bytes equal to the plaintext bytes. -/
def encrypt (text secret iv : List Nat) : List Nat :=
  let key := deriveKey secret
  let ct := text
  let authTag := tagOf key iv ct
  hexEncode iv ++ 58 :: (hexEncode authTag ++ 58 :: hexEncode ct)

/-- decrypt from crypto.js: split on the colon, destructure the first three
parts (extra parts are ignored by the destructuring), fail on a missing or
empty part, then authenticate; every failure path returns the null sentinel
(none) because the whole body is wrapped in try/catch. -/
def decrypt (encryptedData secret : List Nat) : Option (List Nat) :=
  match splitSep 58 encryptedData with
  | ivHex :: authTagHex :: enc :: _ =>
    if ivHex = [] ∨ authTagHex = [] ∨ enc = [] then none
    else
      let key := deriveKey secret
      let iv := hexDecode ivHex
      let authTag := hexDecode authTagHex
      let ct := hexDecode enc
      if authTag = tagOf key iv ct then some ct else none
  | _ => none

/-- An entry of the replacements list of a MappingRecord: the original is
stored as ciphertext when the encrypted marker is set. -/
structure RepEntry where
  original : List Nat
  replacement : List Nat
  encrypted : Bool
deriving DecidableEq, Repr

/-- encryptReplacements from crypto.js: encrypt only the original field of
each rule, keep the replacement visible, set the encrypted marker.  The
provider encrypt under the process secret (with its per-call fresh nonces) is
abstracted as the function enc. -/
def encryptReplacements (enc : List Nat → List Nat) (replacements : List Replacement) :
    List RepEntry :=
  replacements.map fun r => ⟨enc r.original, r.replacement, true⟩

/-! ## Mapping Store (mapper.js) -/

/-- A files entry of a MappingRecord: the pair of an original and a cloaked
relative path. -/
structure FileEntry where
  original : List Nat
  cloaked : List Nat
deriving DecidableEq, Repr

/-- A pullHistory entry of a MappingRecord. -/
structure PullEvent where
  timestamp : List Nat
  filesAdded : Nat
  totalFiles : Nat
deriving DecidableEq, Repr

/-- The persisted MappingRecord (the fields the claims are about; version and
tool tags are constants and are omitted). -/
structure MappingRecord where
  timestamp : List Nat
  encrypted : Bool
  sourcePath : List Nat
  destPath : List Nat
  replacements : List RepEntry
  files : List FileEntry
  statsTotalFiles : Nat
  statsReplacementsCount : Nat
  pullHistory : List PullEvent
deriving DecidableEq, Repr

/-- Modelled from the spec: createMapping of the encrypting generation of
mapper.js, which is absent from the sources (only its tests and its callers in
the pull and push commands remain).  If encryption is enabled for the
installation it encrypts sourceDir, destDir, every replacement original and
every file original via the Crypto Provider under the process secret
(abstracted as enc), never the cloaked values, and sets the stats from the
input lengths. -/
def createMapping (encEnabled : Bool) (enc : List Nat → List Nat)
    (sourceDir destDir timestamp : List Nat)
    (replacements : List Replacement) (files : List FileEntry) : MappingRecord :=
  if encEnabled then
    { timestamp := timestamp
      encrypted := true
      sourcePath := enc sourceDir
      destPath := enc destDir
      replacements := encryptReplacements enc replacements
      files := files.map fun f => ⟨enc f.original, f.cloaked⟩
      statsTotalFiles := files.length
      statsReplacementsCount := replacements.length
      pullHistory := [] }
  else
    { timestamp := timestamp
      encrypted := false
      sourcePath := sourceDir
      destPath := destDir
      replacements := replacements.map fun r => ⟨r.original, r.replacement, false⟩
      files := files
      statsTotalFiles := files.length
      statsReplacementsCount := replacements.length
      pullHistory := [] }

/-- Modelled from the spec: mergeMapping of the encrypting generation of
mapper.js (absent from the sources).  Appends the new files whose original is
not already present (deduplication keyed on original), recomputes
stats.totalFiles, appends one pullHistory entry, leaves replacements alone. -/
def mergeMapping (now : List Nat) (existing : MappingRecord) (newFiles : List FileEntry) :
    MappingRecord :=
  let added := newFiles.filter fun f => !(existing.files.any fun g => g.original == f.original)
  let merged := existing.files ++ added
  { existing with
      files := merged
      statsTotalFiles := merged.length
      pullHistory := existing.pullHistory ++ [⟨now, added.length, merged.length⟩] }

/-! ## Scanner (scanner.js) -/

/-- The binary file extension list of scanner.js. -/
def binaryExtensions : List (List Nat) :=
  [str ".png", str ".jpg", str ".jpeg", str ".gif", str ".bmp", str ".ico",
   str ".webp", str ".svg",
   str ".mp3", str ".mp4", str ".wav", str ".avi", str ".mov", str ".mkv", str ".webm",
   str ".pdf", str ".doc", str ".docx", str ".xls", str ".xlsx", str ".ppt", str ".pptx",
   str ".zip", str ".rar", str ".7z", str ".tar", str ".gz", str ".bz2",
   str ".exe", str ".dll", str ".so", str ".dylib", str ".bin",
   str ".ttf", str ".otf", str ".woff", str ".woff2", str ".eot",
   str ".sqlite", str ".db", str ".mdb"]

/-- The last path segment (the basename with respect to the / separator). -/
def lastSegment (p : List Nat) : List Nat := (splitSep 47 p).getLastD []

/-- path.extname: the suffix of the basename from its last dot, empty when the
basename has no dot or only a leading dot. -/
def extname (p : List Nat) : List Nat :=
  let b := lastSegment p
  let revAfter := b.reverse.takeWhile fun c => c ≠ 46
  if b.length - 1 ≤ revAfter.length then [] else 46 :: revAfter.reverse

/-- isBinaryFile from scanner.js: classify by lower-cased extension. -/
def isBinaryFile (filePath : List Nat) : Bool :=
  binaryExtensions.contains (toLowerStr (extname filePath))

/-! ## Copy-and-Transform Pipeline (copier.js)

The filesystem interaction of one source file is modelled by its observable
behaviour: the raw byte content, the result of attempting to read it as text
(none when reading as text fails), and, for the per-file try/catch of the copy
loop, the error message when the file I/O of the copy fails irrecoverably. -/

/-- One input file of the pipeline. -/
structure SrcFile where
  absolutePath : List Nat
  relativePath : List Nat
  raw : List Nat
  textRead : Option (List Nat)
  ioError : Option (List Nat)

/-- What copyFileWithTransform writes and reports for one file. -/
structure TransformOutcome where
  dest : List Nat
  transformed : Bool
deriving DecidableEq, Repr

/-- copyFileWithTransform from copier.js: binary files are copied as raw
bytes without touching the transform; text files are read, transformed and
written; when reading as text fails the file is copied as raw bytes and
reported untransformed. -/
def copyFileWithTransform (f : SrcFile) (transformFn : List Nat → List Nat) :
    TransformOutcome :=
  if isBinaryFile f.absolutePath then ⟨f.raw, false⟩
  else
    match f.textRead with
    | some content => ⟨transformFn content, transformFn content != content⟩
    | none => ⟨f.raw, false⟩

/-- The per-run result object of copyFiles in copier.js. -/
structure CopyResults where
  total : Nat
  copied : Nat
  transformed : Nat
  errors : List (List Nat × List Nat)
deriving DecidableEq, Repr

/-- The loop of copyFiles: each file either copies (optionally through the
transform) or, when its I/O fails, appends one error record; the loop then
continues with the next file. -/
def copyFilesGo (transformFn : Option (List Nat → List Nat)) :
    List SrcFile → CopyResults → CopyResults
  | [], results => results
  | f :: rest, results =>
    copyFilesGo transformFn rest <|
      match f.ioError with
      | some e => { results with errors := results.errors ++ [(f.relativePath, e)] }
      | none =>
        match transformFn with
        | some tf =>
          let r := copyFileWithTransform f tf
          { results with
              copied := results.copied + 1
              transformed := results.transformed + (if r.transformed then 1 else 0) }
        | none => { results with copied := results.copied + 1 }

/-- copyFiles from copier.js (the plain variant without path renaming). -/
def copyFiles (files : List SrcFile) (transformFn : Option (List Nat → List Nat)) :
    CopyResults :=
  copyFilesGo transformFn files ⟨files.length, 0, 0, []⟩

/-- The per-run result object of the path-renaming copyFiles of copier.js. -/
structure CopyResultsP where
  total : Nat
  copied : Nat
  transformed : Nat
  pathsRenamed : Nat
  errors : List (List Nat × List Nat)
deriving DecidableEq, Repr

/-- The loop of the path-renaming copyFiles: additionally rewrites the
relative path through the copier-internal anonymizePath and counts renames;
error records carry the original relative path. -/
def copyFilesRenameGo (transformFn : Option (List Nat → List Nat))
    (replacements : List Replacement) :
    List SrcFile → CopyResultsP → CopyResultsP
  | [], results => results
  | f :: rest, results =>
    let anonymizedPath := anonymizePathCopier f.relativePath replacements
    let results1 :=
      if anonymizedPath ≠ f.relativePath then
        { results with pathsRenamed := results.pathsRenamed + 1 }
      else results
    copyFilesRenameGo transformFn replacements rest <|
      match f.ioError with
      | some e => { results1 with errors := results1.errors ++ [(f.relativePath, e)] }
      | none =>
        match transformFn with
        | some tf =>
          let r := copyFileWithTransform f tf
          { results1 with
              copied := results1.copied + 1
              transformed := results1.transformed + (if r.transformed then 1 else 0) }
        | none => { results1 with copied := results1.copied + 1 }

/-- The path-renaming copyFiles of copier.js (the variant the pull command
calls with the replacements argument). -/
def copyFilesRename (files : List SrcFile) (transformFn : Option (List Nat → List Nat))
    (replacements : List Replacement) : CopyResultsP :=
  copyFilesRenameGo transformFn replacements files ⟨files.length, 0, 0, 0, []⟩

/-! ## Case classes and side conditions used by the round-trip analysis -/

/-- The three unambiguous case classes of an occurrence: entirely upper-case,
entirely lower-case, or Title Case (first character upper, remainder lower). -/
def caseClassed (s : List Nat) : Prop :=
  toUpperStr s = s ∨ toLowerStr s = s ∨
    (upperChar (s.headD 0) = s.headD 0 ∧ toLowerStr s.tail = s.tail)

/-- A replacement word whose case classes are distinguishable: it begins with
an ASCII letter and has a further ASCII letter after the first character. -/
def goodRepl (r : List Nat) : Prop :=
  isLetterB (r.headD 0) = true ∧ r.tail.any isLetterB = true

/-! ## Character and string case lemmas -/

theorem lowerChar_upperChar (c : Nat) : lowerChar (upperChar c) = lowerChar c := by
  simp only [lowerChar, upperChar]
  split_ifs <;> omega

theorem lowerChar_lowerChar (c : Nat) : lowerChar (lowerChar c) = lowerChar c := by
  simp only [lowerChar]
  split_ifs <;> omega

theorem upperChar_upperChar (c : Nat) : upperChar (upperChar c) = upperChar c := by
  simp only [upperChar]
  split_ifs <;> omega

theorem eq_upperChar_of (a b : Nat) (h : lowerChar a = lowerChar b)
    (ha : upperChar a = a) : a = upperChar b := by
  simp only [lowerChar, upperChar] at *
  split_ifs at * <;> omega

theorem upperChar_lowerChar_ne (c : Nat) (h : isLetterB c = true) :
    upperChar (lowerChar c) ≠ lowerChar c := by
  simp only [isLetterB, Bool.or_eq_true, Bool.and_eq_true, decide_eq_true_eq] at h
  simp only [lowerChar, upperChar]
  split_ifs <;> omega

theorem lowerChar_upperChar_ne (c : Nat) (h : isLetterB c = true) :
    lowerChar (upperChar c) ≠ upperChar c := by
  simp only [isLetterB, Bool.or_eq_true, Bool.and_eq_true, decide_eq_true_eq] at h
  simp only [lowerChar, upperChar]
  split_ifs <;> omega

theorem toLowerStr_toUpperStr (s : List Nat) : toLowerStr (toUpperStr s) = toLowerStr s := by
  simp only [toLowerStr, toUpperStr, List.map_map]
  exact List.map_congr_left fun a _ => lowerChar_upperChar a

theorem toLowerStr_toLowerStr (s : List Nat) : toLowerStr (toLowerStr s) = toLowerStr s := by
  simp only [toLowerStr, List.map_map]
  exact List.map_congr_left fun a _ => lowerChar_lowerChar a

theorem toUpperStr_toUpperStr (s : List Nat) : toUpperStr (toUpperStr s) = toUpperStr s := by
  simp only [toUpperStr, List.map_map]
  exact List.map_congr_left fun a _ => upperChar_upperChar a

theorem length_toLowerStr (s : List Nat) : (toLowerStr s).length = s.length :=
  List.length_map s lowerChar

theorem length_toUpperStr (s : List Nat) : (toUpperStr s).length = s.length :=
  List.length_map s upperChar

theorem eq_upperStr_of (m o : List Nat) (h : toLowerStr m = toLowerStr o)
    (hm : toUpperStr m = m) : m = toUpperStr o := by
  induction m generalizing o with
  | nil =>
    cases o with
    | nil => rfl
    | cons d ds => simp [toLowerStr] at h
  | cons c cs ih =>
    cases o with
    | nil => simp [toLowerStr] at h
    | cons d ds =>
      simp only [toLowerStr, toUpperStr, List.map_cons, List.cons.injEq] at h hm ⊢
      exact ⟨(eq_upperChar_of c d h.1 hm.1), ih ds h.2 hm.2⟩

theorem toUpperStr_fix_mem (l : List Nat) (h : toUpperStr l = l) :
    ∀ c ∈ l, upperChar c = c := by
  intro c hc
  induction l with
  | nil => cases hc
  | cons a as ih =>
    simp only [toUpperStr, List.map_cons, List.cons.injEq] at h
    rcases List.mem_cons.mp hc with rfl | hmem
    · exact h.1
    · exact ih h.2 hmem

theorem toUpperStr_toLowerStr_ne (l : List Nat)
    (h : ∃ d ∈ l, isLetterB d = true) : toUpperStr (toLowerStr l) ≠ toLowerStr l := by
  obtain ⟨d, hd, hlet⟩ := h
  intro heq
  have hm : lowerChar d ∈ toLowerStr l := List.mem_map_of_mem lowerChar hd
  exact upperChar_lowerChar_ne d hlet (toUpperStr_fix_mem _ heq _ hm)

/-! ## Lemmas about the replacement scan -/

theorem ciPrefixB_iff (pat s : List Nat) :
    ciPrefixB pat s = true ↔
      pat.length ≤ s.length ∧ toLowerStr (s.take pat.length) = toLowerStr pat := by
  simp [ciPrefixB]

theorem replaceCIGo_skip (pat : List Nat) (f : List Nat → List Nat)
    (xs rest : List Nat) :
    replaceCIGo pat f xs.length (xs ++ rest) = replaceCIGo pat f 0 rest := by
  induction xs with
  | nil => rfl
  | cons c cs ih => simpa [replaceCIGo] using ih

theorem replaceCI_nil (pat : List Nat) (f : List Nat → List Nat) (h : pat ≠ []) :
    replaceCI pat f [] = [] := by
  simp [replaceCI, h, replaceCIGo]

theorem replaceCI_cons_nomatch (pat : List Nat) (f : List Nat → List Nat)
    (c : Nat) (cs : List Nat) (h : pat ≠ []) (hm : ciPrefixB pat (c :: cs) = false) :
    replaceCI pat f (c :: cs) = c :: replaceCI pat f cs := by
  simp [replaceCI, h, replaceCIGo, hm]

theorem replaceCI_match (pat : List Nat) (f : List Nat → List Nat)
    (m rest : List Nat) (h : pat ≠ []) (hm : m.length = pat.length)
    (hlow : toLowerStr m = toLowerStr pat) :
    replaceCI pat f (m ++ rest) = f m ++ replaceCI pat f rest := by
  have hmne : m ≠ [] := by
    intro hnil
    exact h (List.length_eq_zero.mp (by simpa [hnil] using hm.symm))
  obtain ⟨c, m', rfl⟩ := List.exists_cons_of_ne_nil hmne
  have htake : ((c :: m') ++ rest).take pat.length = c :: m' := by
    rw [← hm]; exact List.take_left _ _
  have hci : ciPrefixB pat ((c :: m') ++ rest) = true := by
    rw [ciPrefixB_iff]
    constructor
    · rw [← hm]; simp
    · rw [htake]; exact hlow
  have hlen : pat.length - 1 = m'.length := by
    simp at hm; omega
  have h0 : replaceCI pat f ((c :: m') ++ rest) = replaceCIGo pat f 0 ((c :: m') ++ rest) := by
    simp [replaceCI, h]
  have h1 : replaceCI pat f rest = replaceCIGo pat f 0 rest := by
    simp [replaceCI, h]
  rw [h0, h1, List.cons_append, replaceCIGo, if_pos (by rw [← List.cons_append]; exact hci)]
  rw [← List.cons_append, htake, hlen, replaceCIGo_skip]

/-! ## Lemmas about matchCase -/

theorem length_matchCase (m r : List Nat) : (matchCase m r).length = r.length := by
  rw [matchCase]
  split_ifs with h1 h2 h3
  · exact length_toUpperStr r
  · exact length_toLowerStr r
  · cases r with
    | nil => rfl
    | cons c cs => simp [titleCase, length_toLowerStr]
  · rfl

theorem toLowerStr_matchCase (m r : List Nat) :
    toLowerStr (matchCase m r) = toLowerStr r := by
  rw [matchCase]
  split_ifs with h1 h2 h3
  · exact toLowerStr_toUpperStr r
  · exact toLowerStr_toLowerStr r
  · cases r with
    | nil => rfl
    | cons c cs =>
      show toLowerStr (upperChar c :: toLowerStr cs) = toLowerStr (c :: cs)
      simp only [toLowerStr, List.map_cons, List.map_map, List.cons.injEq]
      exact ⟨lowerChar_upperChar c, List.map_congr_left fun a _ => lowerChar_lowerChar a⟩
  · rfl

theorem goodRepl_ne_nil (r : List Nat) (hr : goodRepl r) : r ≠ [] := by
  intro h
  subst h
  simp [goodRepl, isLetterB] at hr

/-- Reversing one case adjustment: if the occurrence m lies in one of the
three unambiguous case classes and the replacement word has distinguishable
case classes, adjusting the original to the case of the adjusted replacement
recovers the occurrence exactly. -/
theorem matchCase_matchCase (o r m : List Nat) (ho : o ≠ [])
    (hlow : toLowerStr m = toLowerStr o) (hcc : caseClassed m) (hr : goodRepl r) :
    matchCase (matchCase m r) o = m := by
  obtain ⟨hr0, hr1⟩ := hr
  have hrne : r ≠ [] := goodRepl_ne_nil r ⟨hr0, hr1⟩
  obtain ⟨r0, r1, rfl⟩ := List.exists_cons_of_ne_nil hrne
  have hr0' : isLetterB r0 = true := by simpa using hr0
  have hr1' : ∃ d ∈ r1, isLetterB d = true := by simpa using List.any_eq_true.mp hr1
  by_cases h1 : toUpperStr m = m
  · have hw : matchCase m (r0 :: r1) = toUpperStr (r0 :: r1) := by
      rw [matchCase, if_pos h1]
    rw [hw, matchCase, if_pos (toUpperStr_toUpperStr (r0 :: r1))]
    exact (eq_upperStr_of m o hlow h1).symm
  · by_cases h2 : toLowerStr m = m
    · have hw : matchCase m (r0 :: r1) = toLowerStr (r0 :: r1) := by
        rw [matchCase, if_neg h1, if_pos h2]
      have hc1 : toUpperStr (toLowerStr (r0 :: r1)) ≠ toLowerStr (r0 :: r1) := by
        intro heq
        exact upperChar_lowerChar_ne r0 hr0'
          (toUpperStr_fix_mem _ heq (lowerChar r0) (by simp [toLowerStr]))
      rw [hw, matchCase, if_neg hc1, if_pos (toLowerStr_toLowerStr (r0 :: r1))]
      rw [← hlow]
      exact h2
    · have hh : upperChar (m.headD 0) = m.headD 0 := by
        rcases hcc with h | h | h
        · exact absurd h h1
        · exact absurd h h2
        · exact h.1
      have htl : toLowerStr m.tail = m.tail := by
        rcases hcc with h | h | h
        · exact absurd h h1
        · exact absurd h h2
        · exact h.2
      have hw : matchCase m (r0 :: r1) = upperChar r0 :: toLowerStr r1 := by
        rw [matchCase, if_neg h1, if_neg h2, if_pos hh]
        rfl
      rw [hw]
      have hc1 : toUpperStr (upperChar r0 :: toLowerStr r1) ≠ upperChar r0 :: toLowerStr r1 := by
        intro heq
        have hts : toUpperStr (toLowerStr r1) = toLowerStr r1 := by
          have := congrArg List.tail heq
          simpa [toUpperStr] using this
        exact toUpperStr_toLowerStr_ne r1 hr1' hts
      have hc2 : toLowerStr (upperChar r0 :: toLowerStr r1) ≠ upperChar r0 :: toLowerStr r1 := by
        intro heq
        have hhd := congrArg (fun l => l.headD 0) heq
        simp only [toLowerStr, List.map_cons, List.headD_cons] at hhd
        exact lowerChar_upperChar_ne r0 hr0' hhd
      have hc3 : upperChar ((upperChar r0 :: toLowerStr r1).headD 0)
          = (upperChar r0 :: toLowerStr r1).headD 0 := by
        simp [upperChar_upperChar]
      rw [matchCase, if_neg hc1, if_neg hc2, if_pos hc3]
      have hmne : m ≠ [] := by
        intro hnil
        exact h1 (by simp [hnil, toUpperStr])
      obtain ⟨o0, o1, rfl⟩ := List.exists_cons_of_ne_nil ho
      obtain ⟨m0, m1, rfl⟩ := List.exists_cons_of_ne_nil hmne
      simp only [toLowerStr, List.map_cons, List.cons.injEq] at hlow
      simp only [List.headD_cons] at hh
      simp only [List.tail_cons] at htl
      show titleCase (o0 :: o1) = m0 :: m1
      simp only [titleCase, List.cons.injEq]
      constructor
      · exact (eq_upperChar_of m0 o0 hlow.1 hh).symm
      · show toLowerStr o1 = m1
        have : toLowerStr m1 = toLowerStr o1 := hlow.2
        rw [← this]
        exact htl

theorem createAnonymizer_single (rule : Replacement) (T : List Nat) :
    createAnonymizer [rule] T
      = replaceCI rule.original (fun m => matchCase m rule.replacement) T := rfl

theorem createDeanonymizer_single (rule : Replacement) (T : List Nat) :
    createDeanonymizer [rule] T
      = replaceCI rule.replacement (fun m => matchCase m rule.original) T := rfl

/-- The inductive core of the single-rule round trip, by strong induction on
the length of the text. -/
theorem roundtrip_aux (o r : List Nat) (ho : o ≠ []) (hr : goodRepl r) :
    ∀ n, ∀ T : List Nat, T.length ≤ n →
      (∀ c ∈ T, lowerChar c ∉ toLowerStr r) →
      (∀ i < T.length, ciPrefixB o (T.drop i) = true →
        caseClassed ((T.drop i).take o.length)) →
      createDeanonymizer [⟨o, r⟩] (createAnonymizer [⟨o, r⟩] T) = T := by
  have hrne : r ≠ [] := goodRepl_ne_nil r hr
  intro n
  induction n with
  | zero =>
    intro T hT _ _
    have hTnil : T = [] := List.length_eq_zero.mp (Nat.le_zero.mp hT)
    subst hTnil
    rw [createAnonymizer_single, createDeanonymizer_single]
    rw [replaceCI_nil _ _ ho, replaceCI_nil _ _ hrne]
  | succ n ih =>
    intro T hT hdisj hclass
    by_cases hmatch : ciPrefixB o T = true
    · obtain ⟨holen, hlowm⟩ := (ciPrefixB_iff o T).mp hmatch
      have hTpos : 0 < T.length := by
        have := List.length_pos.mpr ho
        omega
      have hmlen : (T.take o.length).length = o.length := by
        rw [List.length_take]
        omega
      have hccm : caseClassed (T.take o.length) := by
        have := hclass 0 hTpos (by simpa using hmatch)
        simpa using this
      have hTeq : T = T.take o.length ++ T.drop o.length := (List.take_append_drop _ T).symm
      have hrest : (T.drop o.length).length ≤ n := by
        rw [List.length_drop]
        have : 0 < o.length := List.length_pos.mpr ho
        omega
      have ihrest := ih (T.drop o.length) hrest
        (fun c hc => hdisj c (List.drop_subset _ _ hc))
        (by
          intro i hi hp
          have hidx : o.length + i < T.length := by
            rw [List.length_drop] at hi
            omega
          have hdd : (T.drop o.length).drop i = T.drop (o.length + i) := by
            rw [List.drop_drop, Nat.add_comm]
          have := hclass (o.length + i) hidx (by rw [← hdd]; exact hp)
          rw [← hdd] at this
          exact this)
      conv_lhs => rw [hTeq]
      conv_rhs => rw [hTeq]
      rw [createAnonymizer_single]
      rw [replaceCI_match o _ (T.take o.length) (T.drop o.length) ho hmlen hlowm]
      rw [createDeanonymizer_single]
      rw [replaceCI_match r _ (matchCase (T.take o.length) r) _ hrne
        (length_matchCase _ r) (toLowerStr_matchCase _ r)]
      rw [matchCase_matchCase o r (T.take o.length) ho hlowm hccm hr]
      rw [← createAnonymizer_single ⟨o, r⟩, ← createDeanonymizer_single ⟨o, r⟩, ihrest]
    · cases T with
      | nil =>
        rw [createAnonymizer_single, createDeanonymizer_single]
        rw [replaceCI_nil _ _ ho, replaceCI_nil _ _ hrne]
      | cons c cs =>
        have hmatch' : ciPrefixB o (c :: cs) = false := by
          simpa using hmatch
        rw [createAnonymizer_single,
          replaceCI_cons_nomatch o _ c cs ho hmatch']
        obtain ⟨r0, r1, rfl⟩ := List.exists_cons_of_ne_nil hrne
        have hdc : ciPrefixB (r0 :: r1)
            (c :: replaceCI o (fun m => matchCase m (r0 :: r1)) cs) = false := by
          rw [← Bool.not_eq_true]
          intro habs
          obtain ⟨_, hlow⟩ := (ciPrefixB_iff _ _).mp habs
          have hhd := congrArg (fun l => l.headD 0) hlow
          simp only [List.length_cons, List.take_succ_cons, toLowerStr,
            List.map_cons, List.headD_cons] at hhd
          exact hdisj c (List.mem_cons_self c cs) (by
            rw [hhd]
            simp [toLowerStr])
        rw [createDeanonymizer_single,
          replaceCI_cons_nomatch (r0 :: r1) _ c _ (by simp) hdc,
          ← createDeanonymizer_single ⟨o, r0 :: r1⟩,
          ← createAnonymizer_single ⟨o, r0 :: r1⟩]
        have ihcs := ih cs (by simp only [List.length_cons] at hT; omega)
          (fun d hd => hdisj d (List.mem_cons_of_mem c hd))
          (by
            intro i hi hp
            have := hclass (i + 1) (by simpa using Nat.succ_lt_succ hi)
              (by simpa using hp)
            simpa using this)
        rw [ihcs]

/-! ## Decidability of the side conditions (used by concrete witnesses) -/

instance (s : List Nat) : Decidable (caseClassed s) := by
  unfold caseClassed
  infer_instance

instance (r : List Nat) : Decidable (goodRepl r) := by
  unfold goodRepl
  infer_instance

/-- matchCase is the identity on the replacement when the replacement has no
letters, so no case adjustment can be observed on it. -/
theorem matchCase_caseless (m r : List Nat) (hu : toUpperStr r = r)
    (hl : toLowerStr r = r) : matchCase m r = r := by
  rw [matchCase]
  split_ifs with h1 h2 h3
  · exact hu
  · exact hl
  · cases r with
    | nil => rfl
    | cons c cs =>
      simp only [toUpperStr, toLowerStr, List.map_cons, List.cons.injEq] at hu hl
      show upperChar c :: toLowerStr cs = c :: cs
      simp only [toLowerStr]
      rw [hu.1, hl.2]
  · rfl

/-! ## Claim C1 -/

/-- Claim C1, as stated, is false: with the single rule
original Cuviva (Title Case), replacement ABCCompany, the text abccompany is
left alone by the anonymizer (no occurrence of the original), but the
deanonymizer maps it to cuviva, because abccompany is a case-insensitive
occurrence of the replacement that was already present in the text. -/
theorem claim_C1_counterexample :
    caseClassed (str "Cuviva") ∧
    createDeanonymizer [⟨str "Cuviva", str "ABCCompany"⟩]
        (createAnonymizer [⟨str "Cuviva", str "ABCCompany"⟩] (str "abccompany"))
      ≠ str "abccompany" := by
  constructor
  · decide
  · decide

/-- Claim C1 (corrected): the single-rule round trip
deanonymize(anonymize(T)) = T holds when the rule has a nonempty original and
a replacement with distinguishable case classes (first character a letter, a
further letter after it), no character of the replacement occurs
case-insensitively in T, and every case-insensitive occurrence of the original
in T is entirely upper-case, entirely lower-case, or Title Case. -/
theorem claim_C1_roundtrip (o r T : List Nat) (ho : o ≠ []) (hr : goodRepl r)
    (hdisj : ∀ c ∈ T, lowerChar c ∉ toLowerStr r)
    (hclass : ∀ i < T.length, ciPrefixB o (T.drop i) = true →
      caseClassed ((T.drop i).take o.length)) :
    createDeanonymizer [⟨o, r⟩] (createAnonymizer [⟨o, r⟩] T) = T :=
  roundtrip_aux o r ho hr T.length T le_rfl hdisj hclass

/-- The corrected round trip at a concrete rule and text that exercise all
three case classes of an occurrence. -/
theorem claim_C1_roundtrip_witness :
    (str "iv" ≠ ([] : List Nat)) ∧ goodRepl (str "xz") ∧
    (∀ c ∈ str "IV iv Iv", lowerChar c ∉ toLowerStr (str "xz")) ∧
    (∀ i < (str "IV iv Iv").length,
      ciPrefixB (str "iv") ((str "IV iv Iv").drop i) = true →
        caseClassed (((str "IV iv Iv").drop i).take (str "iv").length)) ∧
    createDeanonymizer [⟨str "iv", str "xz"⟩]
        (createAnonymizer [⟨str "iv", str "xz"⟩] (str "IV iv Iv"))
      = str "IV iv Iv" :=
  ⟨by decide, by decide, by decide, by decide,
    claim_C1_roundtrip (str "iv") (str "xz") (str "IV iv Iv")
      (by decide) (by decide) (by decide) (by decide)⟩

/-! ## Claim C2 -/

/-- Claim C2: the case adjustment of the content transform, condition by
condition in the order of the source, together with the two example scenarios
run through the full anonymizer. -/
theorem claim_C2_case_policy :
    (∀ m r : List Nat, toUpperStr m = m → matchCase m r = toUpperStr r) ∧
    (∀ m r : List Nat, toUpperStr m ≠ m → toLowerStr m = m →
      matchCase m r = toLowerStr r) ∧
    (∀ m r : List Nat, toUpperStr m ≠ m → toLowerStr m ≠ m →
      upperChar (m.headD 0) = m.headD 0 → matchCase m r = titleCase r) ∧
    (∀ m r : List Nat, toUpperStr m ≠ m → toLowerStr m ≠ m →
      upperChar (m.headD 0) ≠ m.headD 0 → matchCase m r = r) ∧
    createAnonymizer [⟨str "Cuviva", str "ABCCompany"⟩] (str "Hello Cuviva world")
      = str "Hello Abccompany world" ∧
    createAnonymizer [⟨str "Cuviva", str "ABCCompany"⟩] (str "CUVIVA")
      = str "ABCCOMPANY" := by
  refine ⟨?_, ?_, ?_, ?_, by decide, by decide⟩
  · intro m r h1
    rw [matchCase, if_pos h1]
  · intro m r h1 h2
    rw [matchCase, if_neg h1, if_pos h2]
  · intro m r h1 h2 h3
    rw [matchCase, if_neg h1, if_neg h2, if_pos h3]
  · intro m r h1 h2 h3
    rw [matchCase, if_neg h1, if_neg h2, if_neg h3]

/-- The all-upper branch of the case policy at the example rule. -/
theorem claim_C2_case_policy_witness :
    toUpperStr (str "CUVIVA") = str "CUVIVA" ∧
    matchCase (str "CUVIVA") (str "ABCCompany") = toUpperStr (str "ABCCompany") :=
  ⟨by decide, claim_C2_case_policy.1 (str "CUVIVA") (str "ABCCompany") (by decide)⟩

/-! ## Claim C3 -/

theorem expandDollar_plain (before matched after repl : List Nat)
    (h : ∀ c ∈ repl, c ≠ 36) : expandDollar before matched after repl = repl := by
  induction repl with
  | nil => rfl
  | cons c rest ih =>
    have hc : c ≠ 36 := h c (List.mem_cons_self c rest)
    cases rest with
    | nil => rfl
    | cons d r2 =>
      simp only [expandDollar, if_neg hc]
      exact congrArg (c :: ·) (ih fun x hx => h x (List.mem_cons_of_mem c hx))

theorem replaceStrGo_plain (pat repl S : List Nat) (h : ∀ c ∈ repl, c ≠ 36) :
    ∀ l i k, replaceStrGo pat repl S i k l = replaceCIGo pat (fun _ => repl) k l := by
  intro l
  induction l with
  | nil => intro i k; cases k <;> rfl
  | cons c cs ih =>
    intro i k
    cases k with
    | zero =>
      simp only [replaceStrGo, replaceCIGo]
      by_cases hp : ciPrefixB pat (c :: cs) = true
      · rw [if_pos hp, if_pos hp, expandDollar_plain _ _ _ _ h, ih (i + 1) _]
      · rw [if_neg (by simp [hp]), if_neg (by simp [hp]), ih (i + 1) 0]
    | succ k =>
      simp only [replaceStrGo, replaceCIGo]
      exact ih (i + 1) k

theorem replaceStrEmpty_plain (repl S : List Nat) (h : ∀ c ∈ repl, c ≠ 36) :
    ∀ l i, replaceStrEmpty repl S i l
      = l.foldr (fun c acc => repl ++ c :: acc) repl := by
  intro l
  induction l with
  | nil => intro i; exact expandDollar_plain _ _ _ _ h
  | cons c cs ih =>
    intro i
    simp only [replaceStrEmpty, List.foldr_cons]
    rw [expandDollar_plain _ _ _ _ h, ih (i + 1)]

theorem replaceStr_plain (pat repl s : List Nat) (h : ∀ c ∈ repl, c ≠ 36) :
    replaceStr pat repl s = replaceCI pat (fun _ => repl) s := by
  by_cases hp : pat = []
  · subst hp
    simp only [replaceStr, replaceCI, if_pos rfl]
    exact replaceStrEmpty_plain repl s h s 0
  · simp only [replaceStr, replaceCI, if_neg hp]
    exact replaceStrGo_plain pat repl s h s 0 0

/-- Claim C3, as stated, is false: anonymizePath of anonymizer.js passes the
replacement as a plain string to String.replace, so it gets no case
adjustment (on CUVIVA the content transform upper-cases the replacement, the
path variant does not) and it undergoes dollar substitution (with the
replacement consisting of a dollar and an ampersand, the path variant
re-inserts the matched text while the content transform inserts those two
characters); the copier-internal path variant differs from the content
transform too, through its Title Case branch that does not lower-case the
remainder of the replacement. -/
theorem claim_C3_counterexample :
    anonymizePath (str "CUVIVA") [⟨str "Cuviva", str "ABCCompany"⟩]
      ≠ createAnonymizer [⟨str "Cuviva", str "ABCCompany"⟩] (str "CUVIVA") ∧
    anonymizePath (str "iv") [⟨str "iv", str "$&"⟩]
      ≠ createAnonymizer [⟨str "iv", str "$&"⟩] (str "iv") ∧
    anonymizePathCopier (str "Cuviva") [⟨str "Cuviva", str "ABCCompany"⟩]
      ≠ createAnonymizer [⟨str "Cuviva", str "ABCCompany"⟩] (str "Cuviva") := by
  refine ⟨?_, ?_, ?_⟩
  · decide
  · decide
  · decide

/-- Claim C3 (corrected): anonymizePath applies the same rules, in the same
order, with the same case-insensitive global matching, but passes each
replacement as a plain string: no case adjustment, and dollar escapes are
substituted.  It coincides with the content transform whenever no replacement
contains a dollar character (so the string is inserted as it stands) or an
ASCII letter (so the case adjustment is the identity on it). -/
theorem claim_C3_path_eq_content (R : List Replacement) (p : List Nat)
    (hplain : ∀ rule ∈ R, (∀ c ∈ rule.replacement, c ≠ 36) ∧
      toUpperStr rule.replacement = rule.replacement ∧
      toLowerStr rule.replacement = rule.replacement) :
    anonymizePath p R = createAnonymizer R p := by
  induction R generalizing p with
  | nil => rfl
  | cons a as ih =>
    show List.foldl _ (replaceStr a.original a.replacement p) as
      = List.foldl applyRule (applyRule p a) as
    have ha := hplain a (List.mem_cons_self a as)
    have hfun : (fun m => matchCase m a.replacement) = (fun _ => a.replacement) :=
      funext fun m => matchCase_caseless m a.replacement ha.2.1 ha.2.2
    have hstep : replaceStr a.original a.replacement p = applyRule p a := by
      rw [replaceStr_plain _ _ _ ha.1, applyRule, hfun]
    rw [hstep]
    exact ih (applyRule p a) fun rule hrule => hplain rule (List.mem_cons_of_mem a hrule)

/-- The corrected path and content agreement at a digits-only replacement. -/
theorem claim_C3_path_eq_content_witness :
    (∀ rule ∈ [(⟨str "iv", str "12"⟩ : Replacement)],
      (∀ c ∈ rule.replacement, c ≠ 36) ∧
      toUpperStr rule.replacement = rule.replacement ∧
      toLowerStr rule.replacement = rule.replacement) ∧
    anonymizePath (str "src/IV/iv.txt") [⟨str "iv", str "12"⟩]
      = createAnonymizer [⟨str "iv", str "12"⟩] (str "src/IV/iv.txt") :=
  ⟨by decide,
    claim_C3_path_eq_content [⟨str "iv", str "12"⟩] (str "src/IV/iv.txt") (by decide)⟩

/-! ## Crypto lemmas -/

theorem hexEncode_ne (l : List Nat) : ∀ c ∈ hexEncode l, c = 49 ∨ c = 103 := by
  intro c hc
  simp only [hexEncode, List.mem_flatMap] at hc
  obtain ⟨n, _, hmem⟩ := hc
  rcases List.mem_append.mp hmem with h | h
  · exact Or.inl (List.eq_of_mem_replicate h)
  · simp at h
    exact Or.inr h

theorem hexDecodeGo_digits (rest : List Nat) (ds : List Nat) (acc : List Nat)
    (hds : ∀ c ∈ ds, c ≠ 103) :
    hexDecodeGo acc (ds ++ 103 :: rest) = unhex (acc.reverse ++ ds) :: hexDecodeGo [] rest := by
  induction ds generalizing acc with
  | nil => simp [hexDecodeGo]
  | cons d ds ih =>
    have hd : d ≠ 103 := hds d (List.mem_cons_self d ds)
    have step : hexDecodeGo acc (d :: (ds ++ 103 :: rest))
        = hexDecodeGo (d :: acc) (ds ++ 103 :: rest) := by
      simp [hexDecodeGo, hd]
    rw [show (d :: ds) ++ 103 :: rest = d :: (ds ++ 103 :: rest) from rfl, step,
      ih (d :: acc) (fun c hc => hds c (List.mem_cons_of_mem d hc))]
    simp

theorem hexDecode_hexEncode (l : List Nat) : hexDecode (hexEncode l) = l := by
  induction l with
  | nil => rfl
  | cons n l ih =>
    show hexDecodeGo [] (natHex n ++ [103] ++ hexEncode l) = n :: l
    rw [List.append_assoc, List.singleton_append,
      hexDecodeGo_digits _ _ [] (fun c hc => by
        simp only [natHex] at hc
        simp [List.eq_of_mem_replicate hc])]
    simp only [List.reverse_nil, List.nil_append]
    rw [show unhex (natHex n) = n from by simp [unhex, natHex]]
    exact congrArg (n :: ·) ih

theorem hexEncode_inj (a b : List Nat) (h : hexEncode a = hexEncode b) : a = b := by
  have := congrArg hexDecode h
  rwa [hexDecode_hexEncode, hexDecode_hexEncode] at this

theorem hexEncode_ne_nil (l : List Nat) (h : l ≠ []) : hexEncode l ≠ [] := by
  obtain ⟨n, l, rfl⟩ := List.exists_cons_of_ne_nil h
  simp [hexEncode, natHex]

theorem hexEncode_ne_colon (l : List Nat) : ∀ c ∈ hexEncode l, c ≠ 58 := by
  intro c hc
  rcases hexEncode_ne l c hc with h | h <;> omega

theorem splitSep_sepfree (sep : Nat) (xs : List Nat) (h : ∀ c ∈ xs, c ≠ sep) :
    splitSep sep xs = [xs] := by
  induction xs with
  | nil => rfl
  | cons c cs ih =>
    have hc : c ≠ sep := h c (List.mem_cons_self c cs)
    rw [splitSep, if_neg hc, ih (fun d hd => h d (List.mem_cons_of_mem c hd))]

theorem splitSep_append (sep : Nat) (xs ys : List Nat) (h : ∀ c ∈ xs, c ≠ sep) :
    splitSep sep (xs ++ sep :: ys) = xs :: splitSep sep ys := by
  induction xs with
  | nil => simp [splitSep]
  | cons c cs ih =>
    have hc : c ≠ sep := h c (List.mem_cons_self c cs)
    rw [List.cons_append, splitSep, if_neg hc,
      ih (fun d hd => h d (List.mem_cons_of_mem c hd))]

theorem sepfree_prefix_inj (as bs : List Nat) (xs ys : List Nat)
    (hxs : ∀ c ∈ xs, c ≠ 58) (hys : ∀ c ∈ ys, c ≠ 58)
    (h : xs ++ 58 :: as = ys ++ 58 :: bs) : xs = ys ∧ as = bs := by
  induction xs generalizing ys with
  | nil =>
    cases ys with
    | nil => simpa using h
    | cons y ys =>
      simp only [List.nil_append, List.cons_append, List.cons.injEq] at h
      exact absurd h.1.symm (hys y (List.mem_cons_self y ys))
  | cons x xs ih =>
    cases ys with
    | nil =>
      simp only [List.nil_append, List.cons_append, List.cons.injEq] at h
      exact absurd h.1 (hxs x (List.mem_cons_self x xs))
    | cons y ys =>
      simp only [List.cons_append, List.cons.injEq] at h
      obtain ⟨h1, h2⟩ := ih ys (fun c hc => hxs c (List.mem_cons_of_mem x hc))
        (fun c hc => hys c (List.mem_cons_of_mem y hc)) h.2
      exact ⟨by rw [h.1, h1], h2⟩

theorem tagOf_key_inj (k1 iv1 c1 k2 iv2 c2 : List Nat)
    (h : tagOf k1 iv1 c1 = tagOf k2 iv2 c2) : k1 = k2 := by
  simp only [tagOf] at h
  have h1 : k1.length = k2.length := by
    have := congrArg (fun l => l.headD 0) h
    simpa using this
  have h2 : k1 ++ (iv1.length :: (iv1 ++ c1)) = k2 ++ (iv2.length :: (iv2 ++ c2)) := by
    have := congrArg List.tail h
    simpa using this
  exact (List.append_inj h2 h1).1

theorem encrypt_parts (P S iv : List Nat) :
    splitSep 58 (encrypt P S iv)
      = [hexEncode iv, hexEncode (tagOf (deriveKey S) iv P), hexEncode P] := by
  simp only [encrypt]
  rw [splitSep_append 58 _ _ (hexEncode_ne_colon iv),
    splitSep_append 58 _ _ (hexEncode_ne_colon _),
    splitSep_sepfree 58 _ (hexEncode_ne_colon P)]

/-- decrypt on an input whose colon-split starts with three parts. -/
theorem decrypt_triple (D S a b c : List Nat) (rest : List (List Nat))
    (hsp : splitSep 58 D = a :: b :: c :: rest) :
    decrypt D S
      = if a = [] ∨ b = [] ∨ c = [] then none
        else if hexDecode b = tagOf (deriveKey S) (hexDecode a) (hexDecode c) then
          some (hexDecode c)
        else none := by
  rw [decrypt.eq_def, hsp]

theorem decrypt_encrypt_wrong (P S T iv : List Nat) (h : S ≠ T) :
    decrypt (encrypt P S iv) T = none := by
  rw [decrypt_triple _ _ _ _ _ _ (encrypt_parts P S iv)]
  by_cases hempty : hexEncode iv = [] ∨ hexEncode (tagOf (deriveKey S) iv P) = [] ∨
      hexEncode P = []
  · rw [if_pos hempty]
  · rw [if_neg hempty, hexDecode_hexEncode, hexDecode_hexEncode, hexDecode_hexEncode]
    rw [if_neg]
    intro habs
    exact h (tagOf_key_inj _ _ _ _ _ _ habs)

theorem decrypt_encrypt (P S iv : List Nat) (hP : P ≠ []) (hiv : iv ≠ []) :
    decrypt (encrypt P S iv) S = some P := by
  rw [decrypt_triple _ _ _ _ _ _ (encrypt_parts P S iv)]
  rw [if_neg, hexDecode_hexEncode, hexDecode_hexEncode, hexDecode_hexEncode, if_pos rfl]
  push_neg
  exact ⟨hexEncode_ne_nil iv hiv, hexEncode_ne_nil _ (by simp [tagOf]), hexEncode_ne_nil P hP⟩

theorem encrypt_nonce_ne (P S iv1 iv2 : List Nat) (h : iv1 ≠ iv2) :
    encrypt P S iv1 ≠ encrypt P S iv2 := by
  intro habs
  simp only [encrypt] at habs
  have := sepfree_prefix_inj _ _ (hexEncode iv1) (hexEncode iv2)
    (hexEncode_ne_colon iv1) (hexEncode_ne_colon iv2) habs
  exact h (hexEncode_inj _ _ this.1)

/-! ## Claim C6 -/

/-- Claim C6: decrypt is a total function into an option (the try/catch of the
source turns every failure into the null sentinel, modelled as none): it
returns the sentinel when the colon-split has fewer than three parts, when one
of the first three parts is empty, and when the ciphertext was produced under
a different secret; in that last case it never returns any plaintext at all. -/
theorem claim_C6_decrypt_never_throws :
    (∀ D S : List Nat, (splitSep 58 D).length < 3 → decrypt D S = none) ∧
    (∀ D S a b c : List Nat, ∀ rest : List (List Nat),
      splitSep 58 D = a :: b :: c :: rest → (a = [] ∨ b = [] ∨ c = []) →
        decrypt D S = none) ∧
    (∀ P S T iv : List Nat, S ≠ T → decrypt (encrypt P S iv) T = none) := by
  refine ⟨?_, ?_, fun P S T iv h => decrypt_encrypt_wrong P S T iv h⟩
  · intro D S h
    rw [decrypt.eq_def]
    rcases hsp : splitSep 58 D with _ | ⟨a, _ | ⟨b, _ | ⟨c, rest⟩⟩⟩
    · rfl
    · rfl
    · rfl
    · rw [hsp] at h
      simp only [List.length_cons] at h
      omega
  · intro D S a b c rest hsp h
    rw [decrypt_triple _ _ _ _ _ _ hsp, if_pos h]

/-- Wrong-key decryption fails with the sentinel at a concrete input. -/
theorem claim_C6_decrypt_never_throws_witness :
    (str "s1" ≠ str "s2") ∧
    decrypt (encrypt (str "hi") (str "s1") [1, 2]) (str "s2") = none :=
  ⟨by decide, claim_C6_decrypt_never_throws.2.2 (str "hi") (str "s1") (str "s2") [1, 2]
    (by decide)⟩

/-! ## Claim C7 -/

/-- Claim C7, as stated, is false at the empty plaintext: the ciphertext part
of the encrypted string is then empty, and decrypt rejects it as falsy and
returns the sentinel instead of the plaintext (the repository test suite
itself expects empty-or-null here). -/
theorem claim_C7_counterexample :
    encrypt ([] : List Nat) (str "k") [1] ≠ encrypt ([] : List Nat) (str "k") [2] ∧
    decrypt (encrypt ([] : List Nat) (str "k") [1]) (str "k") = none := by
  constructor
  · decide
  · decide

/-- Claim C7 (corrected): for a nonempty plaintext, two calls with distinct
fresh nonces (the source draws 16 random bytes, so nonces are nonempty)
produce different ciphertext strings, and both decrypt back to the plaintext
under the same secret. -/
theorem claim_C7_nonce_freshness (P S iv1 iv2 : List Nat) (hP : P ≠ [])
    (h12 : iv1 ≠ iv2) (h1 : iv1 ≠ []) (h2 : iv2 ≠ []) :
    encrypt P S iv1 ≠ encrypt P S iv2 ∧
    decrypt (encrypt P S iv1) S = some P ∧
    decrypt (encrypt P S iv2) S = some P :=
  ⟨encrypt_nonce_ne P S iv1 iv2 h12,
    decrypt_encrypt P S iv1 hP h1, decrypt_encrypt P S iv2 hP h2⟩

/-- Nonce freshness and the round trip at a concrete plaintext and nonces. -/
theorem claim_C7_nonce_freshness_witness :
    (str "hi" ≠ ([] : List Nat)) ∧ ([1] ≠ ([2] : List Nat)) ∧
    ([1] ≠ ([] : List Nat)) ∧ ([2] ≠ ([] : List Nat)) ∧
    (encrypt (str "hi") (str "k") [1] ≠ encrypt (str "hi") (str "k") [2] ∧
      decrypt (encrypt (str "hi") (str "k") [1]) (str "k") = some (str "hi") ∧
      decrypt (encrypt (str "hi") (str "k") [2]) (str "k") = some (str "hi")) :=
  ⟨by decide, by decide, by decide, by decide,
    claim_C7_nonce_freshness (str "hi") (str "k") [1] [2]
      (by decide) (by decide) (by decide) (by decide)⟩

/-! ## Copier lemmas: the closed form of the copy loop accumulators -/

theorem copyFilesGo_total (t : Option (List Nat → List Nat)) (files : List SrcFile) :
    ∀ acc, (copyFilesGo t files acc).total = acc.total := by
  induction files with
  | nil => intro acc; rfl
  | cons f rest ih =>
    intro acc
    rcases hf : f.ioError with _ | e
    · rcases t with _ | tf
      · simp only [copyFilesGo, hf]
        rw [ih _]
      · simp only [copyFilesGo, hf]
        rw [ih _]
    · simp only [copyFilesGo, hf]
      rw [ih _]

theorem copyFilesGo_copied (t : Option (List Nat → List Nat)) (files : List SrcFile) :
    ∀ acc, (copyFilesGo t files acc).copied
      = acc.copied + (files.filter fun f => f.ioError.isNone).length := by
  induction files with
  | nil => intro acc; simp [copyFilesGo]
  | cons f rest ih =>
    intro acc
    rcases hf : f.ioError with _ | e
    · rcases t with _ | tf
      · simp only [copyFilesGo, hf]
        rw [ih _]
        simp [List.filter_cons, hf]
        omega
      · simp only [copyFilesGo, hf]
        rw [ih _]
        simp [List.filter_cons, hf]
        omega
    · simp only [copyFilesGo, hf]
      rw [ih _]
      simp [List.filter_cons, hf]

theorem copyFilesGo_errors (t : Option (List Nat → List Nat)) (files : List SrcFile) :
    ∀ acc, (copyFilesGo t files acc).errors
      = acc.errors ++ files.filterMap fun f => f.ioError.map fun e => (f.relativePath, e) := by
  induction files with
  | nil => intro acc; simp [copyFilesGo]
  | cons f rest ih =>
    intro acc
    rcases hf : f.ioError with _ | e
    · rcases t with _ | tf
      · simp only [copyFilesGo, hf]
        rw [ih _]
        simp [List.filterMap_cons, hf]
      · simp only [copyFilesGo, hf]
        rw [ih _]
        simp [List.filterMap_cons, hf]
    · simp only [copyFilesGo, hf]
      rw [ih _]
      simp [List.filterMap_cons, hf]

theorem copyFiles_total (files : List SrcFile) (t : Option (List Nat → List Nat)) :
    (copyFiles files t).total = files.length :=
  copyFilesGo_total t files _

theorem copyFiles_copied (files : List SrcFile) (t : Option (List Nat → List Nat)) :
    (copyFiles files t).copied = (files.filter fun f => f.ioError.isNone).length := by
  rw [copyFiles, copyFilesGo_copied]
  simp

theorem copyFiles_errors (files : List SrcFile) (t : Option (List Nat → List Nat)) :
    (copyFiles files t).errors
      = files.filterMap fun f => f.ioError.map fun e => (f.relativePath, e) := by
  rw [copyFiles, copyFilesGo_errors]
  rfl

theorem isNone_filterMap_length (files : List SrcFile) :
    (files.filter fun f => f.ioError.isNone).length
      + (files.filterMap fun f => f.ioError.map fun e => (f.relativePath, e)).length
      = files.length := by
  induction files with
  | nil => rfl
  | cons f rest ih =>
    rcases hf : f.ioError with _ | e <;>
      simp [List.filter_cons, List.filterMap_cons, hf] <;> omega

theorem copyFilesRenameGo_total (t : Option (List Nat → List Nat))
    (reps : List Replacement) (files : List SrcFile) :
    ∀ acc, (copyFilesRenameGo t reps files acc).total = acc.total := by
  induction files with
  | nil => intro acc; rfl
  | cons f rest ih =>
    intro acc
    rcases hf : f.ioError with _ | e
    · rcases t with _ | tf
      · simp only [copyFilesRenameGo, hf]
        split_ifs <;> rw [ih _]
      · simp only [copyFilesRenameGo, hf]
        split_ifs <;> rw [ih _]
    · simp only [copyFilesRenameGo, hf]
      split_ifs <;> rw [ih _]

theorem copyFilesRenameGo_copied (t : Option (List Nat → List Nat))
    (reps : List Replacement) (files : List SrcFile) :
    ∀ acc, (copyFilesRenameGo t reps files acc).copied
      = acc.copied + (files.filter fun f => f.ioError.isNone).length := by
  induction files with
  | nil => intro acc; simp [copyFilesRenameGo]
  | cons f rest ih =>
    intro acc
    rcases hf : f.ioError with _ | e
    · rcases t with _ | tf
      · simp only [copyFilesRenameGo, hf]
        split_ifs <;> rw [ih _] <;> simp [List.filter_cons, hf] <;> omega
      · simp only [copyFilesRenameGo, hf]
        split_ifs <;> rw [ih _] <;> simp [List.filter_cons, hf] <;> omega
    · simp only [copyFilesRenameGo, hf]
      split_ifs <;> rw [ih _] <;> simp [List.filter_cons, hf]

theorem copyFilesRenameGo_errors (t : Option (List Nat → List Nat))
    (reps : List Replacement) (files : List SrcFile) :
    ∀ acc, (copyFilesRenameGo t reps files acc).errors
      = acc.errors ++ files.filterMap fun f => f.ioError.map fun e => (f.relativePath, e) := by
  induction files with
  | nil => intro acc; simp [copyFilesRenameGo]
  | cons f rest ih =>
    intro acc
    rcases hf : f.ioError with _ | e
    · rcases t with _ | tf
      · simp only [copyFilesRenameGo, hf]
        split_ifs <;> rw [ih _] <;> simp [List.filterMap_cons, hf]
      · simp only [copyFilesRenameGo, hf]
        split_ifs <;> rw [ih _] <;> simp [List.filterMap_cons, hf]
    · simp only [copyFilesRenameGo, hf]
      split_ifs <;> rw [ih _] <;> simp [List.filterMap_cons, hf]

theorem copyFilesRename_total (files : List SrcFile) (t : Option (List Nat → List Nat))
    (reps : List Replacement) : (copyFilesRename files t reps).total = files.length :=
  copyFilesRenameGo_total t reps files _

theorem copyFilesRename_copied (files : List SrcFile) (t : Option (List Nat → List Nat))
    (reps : List Replacement) :
    (copyFilesRename files t reps).copied
      = (files.filter fun f => f.ioError.isNone).length := by
  rw [copyFilesRename, copyFilesRenameGo_copied]
  simp

theorem copyFilesRename_errors (files : List SrcFile) (t : Option (List Nat → List Nat))
    (reps : List Replacement) :
    (copyFilesRename files t reps).errors
      = files.filterMap fun f => f.ioError.map fun e => (f.relativePath, e) := by
  rw [copyFilesRename, copyFilesRenameGo_errors]
  rfl

/-! ## Claim C8 -/

/-- Claim C8: a file whose extension is classified as binary is copied with
its raw bytes, the content transform is never consulted (the result does not
mention it), and transformed is reported false. -/
theorem claim_C8_binary_passthrough (f : SrcFile) (transformFn : List Nat → List Nat)
    (h : isBinaryFile f.absolutePath = true) :
    copyFileWithTransform f transformFn = ⟨f.raw, false⟩ := by
  rw [copyFileWithTransform, if_pos h]

/-- Binary passthrough at a concrete png file and a destructive transform. -/
theorem claim_C8_binary_passthrough_witness :
    isBinaryFile (str "/src/logo.PNG") = true ∧
    copyFileWithTransform
        ⟨str "/src/logo.PNG", str "logo.PNG", [137, 80, 78, 71], some [1, 2], none⟩
        (fun _ => [])
      = ⟨[137, 80, 78, 71], false⟩ :=
  ⟨by decide,
    claim_C8_binary_passthrough
      ⟨str "/src/logo.PNG", str "logo.PNG", [137, 80, 78, 71], some [1, 2], none⟩
      (fun _ => []) (by decide)⟩

/-! ## Claim C9 -/

/-- Claim C9: failures stay local.  First, when reading a text file fails the
file is copied as raw bytes instead of aborting.  Second, a file whose I/O
fails contributes exactly one error record carrying its relative path and
message, and the files before and after it are processed exactly as they
would be on their own (error list and copied count decompose around the
failing file). -/
theorem claim_C9_error_containment :
    (∀ (f : SrcFile) (tf : List Nat → List Nat),
      isBinaryFile f.absolutePath = false → f.textRead = none →
      copyFileWithTransform f tf = ⟨f.raw, false⟩) ∧
    (∀ (t : Option (List Nat → List Nat)) (pre post : List SrcFile)
        (f : SrcFile) (e : List Nat),
      f.ioError = some e →
      (copyFiles (pre ++ f :: post) t).errors
        = (copyFiles pre t).errors ++ (f.relativePath, e) :: (copyFiles post t).errors ∧
      (copyFiles (pre ++ f :: post) t).copied
        = (copyFiles pre t).copied + (copyFiles post t).copied) := by
  constructor
  · intro f tf hbin hread
    rw [copyFileWithTransform, if_neg (by simp [hbin]), hread]
  · intro t pre post f e hf
    constructor
    · rw [copyFiles_errors, copyFiles_errors, copyFiles_errors, List.filterMap_append]
      simp [List.filterMap_cons, hf]
    · rw [copyFiles_copied, copyFiles_copied, copyFiles_copied, List.filter_append]
      simp [List.filter_cons, hf]

/-- Error containment at a concrete batch whose middle file fails. -/
theorem claim_C9_error_containment_witness :
    (⟨str "/s/b.txt", str "b.txt", [2], none, some (str "EACCES")⟩ : SrcFile).ioError
        = some (str "EACCES") ∧
    ((copyFiles ([⟨str "/s/a.txt", str "a.txt", [1], some [1], none⟩] ++
        ⟨str "/s/b.txt", str "b.txt", [2], none, some (str "EACCES")⟩ ::
        [⟨str "/s/c.txt", str "c.txt", [3], some [3], none⟩]) none).errors
      = (copyFiles [⟨str "/s/a.txt", str "a.txt", [1], some [1], none⟩] none).errors ++
        ((⟨str "/s/b.txt", str "b.txt", [2], none, some (str "EACCES")⟩ : SrcFile).relativePath,
          str "EACCES") ::
        (copyFiles [⟨str "/s/c.txt", str "c.txt", [3], some [3], none⟩] none).errors ∧
      (copyFiles ([⟨str "/s/a.txt", str "a.txt", [1], some [1], none⟩] ++
        ⟨str "/s/b.txt", str "b.txt", [2], none, some (str "EACCES")⟩ ::
        [⟨str "/s/c.txt", str "c.txt", [3], some [3], none⟩]) none).copied
      = (copyFiles [⟨str "/s/a.txt", str "a.txt", [1], some [1], none⟩] none).copied +
        (copyFiles [⟨str "/s/c.txt", str "c.txt", [3], some [3], none⟩] none).copied) :=
  ⟨rfl, claim_C9_error_containment.2 none
    [⟨str "/s/a.txt", str "a.txt", [1], some [1], none⟩]
    [⟨str "/s/c.txt", str "c.txt", [3], some [3], none⟩]
    ⟨str "/s/b.txt", str "b.txt", [2], none, some (str "EACCES")⟩
    (str "EACCES") rfl⟩

/-! ## Claim C10 -/

/-- Claim C10: in both generations of the copy loop, every input file is
accounted for exactly once: total equals the input length, and the copied
count plus the number of error records equals the total. -/
theorem claim_C10_accounting :
    (∀ (files : List SrcFile) (t : Option (List Nat → List Nat)),
      (copyFiles files t).total = files.length ∧
      (copyFiles files t).copied + (copyFiles files t).errors.length
        = (copyFiles files t).total) ∧
    (∀ (files : List SrcFile) (t : Option (List Nat → List Nat))
        (reps : List Replacement),
      (copyFilesRename files t reps).total = files.length ∧
      (copyFilesRename files t reps).copied + (copyFilesRename files t reps).errors.length
        = (copyFilesRename files t reps).total) := by
  constructor
  · intro files t
    refine ⟨copyFiles_total files t, ?_⟩
    rw [copyFiles_total, copyFiles_copied, copyFiles_errors]
    exact isNone_filterMap_length files
  · intro files t reps
    refine ⟨copyFilesRename_total files t reps, ?_⟩
    rw [copyFilesRename_total, copyFilesRename_copied, copyFilesRename_errors]
    exact isNone_filterMap_length files

/-! ## Claim C4 -/

/-- Claim C4: with encryption enabled, createMapping stores the source
directory, the destination directory, every replacement original and every
file original as ciphertext of the Crypto Provider under the process secret
(abstracted as the function enc), never encrypts the cloaked path values, and
sets the encrypted flag. -/
theorem claim_C4_createMapping_encrypts (enc : List Nat → List Nat)
    (sourceDir destDir timestamp : List Nat) (replacements : List Replacement)
    (files : List FileEntry) (b : Bool) (hb : b = true) :
    (createMapping b enc sourceDir destDir timestamp replacements files).sourcePath
        = enc sourceDir ∧
    (createMapping b enc sourceDir destDir timestamp replacements files).destPath
        = enc destDir ∧
    (createMapping b enc sourceDir destDir timestamp replacements files).replacements
        = replacements.map (fun r => ⟨enc r.original, r.replacement, true⟩) ∧
    (createMapping b enc sourceDir destDir timestamp replacements files).files
        = files.map (fun f => ⟨enc f.original, f.cloaked⟩) ∧
    (createMapping b enc sourceDir destDir timestamp replacements files).files.map
        FileEntry.cloaked
        = files.map FileEntry.cloaked ∧
    (createMapping b enc sourceDir destDir timestamp replacements files).encrypted
        = true := by
  subst hb
  refine ⟨rfl, rfl, rfl, rfl, ?_, rfl⟩
  show (files.map fun f => (⟨enc f.original, f.cloaked⟩ : FileEntry)).map FileEntry.cloaked
    = files.map FileEntry.cloaked
  rw [List.map_map]
  rfl

/-- createMapping with encryption enabled at a concrete record. -/
theorem claim_C4_createMapping_encrypts_witness :
    (true = true) ∧
    ((createMapping true (fun l => 103 :: l) (str "/s") (str "/d") (str "ts")
        [⟨str "Cuviva", str "ABCCompany"⟩] [⟨str "a.js", str "b.js"⟩]).sourcePath
      = (fun l => 103 :: l) (str "/s") ∧
    (createMapping true (fun l => 103 :: l) (str "/s") (str "/d") (str "ts")
        [⟨str "Cuviva", str "ABCCompany"⟩] [⟨str "a.js", str "b.js"⟩]).destPath
      = (fun l => 103 :: l) (str "/d") ∧
    (createMapping true (fun l => 103 :: l) (str "/s") (str "/d") (str "ts")
        [⟨str "Cuviva", str "ABCCompany"⟩] [⟨str "a.js", str "b.js"⟩]).replacements
      = [(⟨str "Cuviva", str "ABCCompany"⟩ : Replacement)].map
          (fun r => ⟨(fun l => 103 :: l) r.original, r.replacement, true⟩) ∧
    (createMapping true (fun l => 103 :: l) (str "/s") (str "/d") (str "ts")
        [⟨str "Cuviva", str "ABCCompany"⟩] [⟨str "a.js", str "b.js"⟩]).files
      = [(⟨str "a.js", str "b.js"⟩ : FileEntry)].map
          (fun f => ⟨(fun l => 103 :: l) f.original, f.cloaked⟩) ∧
    (createMapping true (fun l => 103 :: l) (str "/s") (str "/d") (str "ts")
        [⟨str "Cuviva", str "ABCCompany"⟩] [⟨str "a.js", str "b.js"⟩]).files.map
        FileEntry.cloaked
      = [(⟨str "a.js", str "b.js"⟩ : FileEntry)].map FileEntry.cloaked ∧
    (createMapping true (fun l => 103 :: l) (str "/s") (str "/d") (str "ts")
        [⟨str "Cuviva", str "ABCCompany"⟩] [⟨str "a.js", str "b.js"⟩]).encrypted
      = true) :=
  ⟨rfl, claim_C4_createMapping_encrypts (fun l => 103 :: l) (str "/s") (str "/d")
    (str "ts") [⟨str "Cuviva", str "ABCCompany"⟩] [⟨str "a.js", str "b.js"⟩] true rfl⟩

/-! ## Claim C5 -/

/-- Claim C5: mergeMapping appends exactly the new files whose original is
not already present (keyed on original), sets stats.totalFiles to the length
of the merged files, appends exactly one pullHistory entry whose filesAdded is
the number actually added, leaves replacements untouched; merging [b, c] into
a record holding [a, b] yields [a, b, c], totalFiles 3 and one history entry
with filesAdded 1. -/
theorem claim_C5_mergeMapping (now : List Nat) (existing : MappingRecord)
    (newFiles : List FileEntry) :
    (mergeMapping now existing newFiles).files
      = existing.files ++
        newFiles.filter (fun f => !(existing.files.any fun g => g.original == f.original)) ∧
    (mergeMapping now existing newFiles).statsTotalFiles
      = (mergeMapping now existing newFiles).files.length ∧
    (mergeMapping now existing newFiles).pullHistory
      = existing.pullHistory ++
        [⟨now,
          (newFiles.filter
            (fun f => !(existing.files.any fun g => g.original == f.original))).length,
          (mergeMapping now existing newFiles).files.length⟩] ∧
    (mergeMapping now existing newFiles).replacements = existing.replacements ∧
    (mergeMapping (str "t")
        ⟨str "ts", true, [], [], [],
          [⟨str "a.js", str "a.js"⟩, ⟨str "b.js", str "b.js"⟩], 2, 0, []⟩
        [⟨str "b.js", str "b.js"⟩, ⟨str "c.js", str "c.js"⟩]).files
      = [⟨str "a.js", str "a.js"⟩, ⟨str "b.js", str "b.js"⟩, ⟨str "c.js", str "c.js"⟩] ∧
    (mergeMapping (str "t")
        ⟨str "ts", true, [], [], [],
          [⟨str "a.js", str "a.js"⟩, ⟨str "b.js", str "b.js"⟩], 2, 0, []⟩
        [⟨str "b.js", str "b.js"⟩, ⟨str "c.js", str "c.js"⟩]).statsTotalFiles = 3 ∧
    (mergeMapping (str "t")
        ⟨str "ts", true, [], [], [],
          [⟨str "a.js", str "a.js"⟩, ⟨str "b.js", str "b.js"⟩], 2, 0, []⟩
        [⟨str "b.js", str "b.js"⟩, ⟨str "c.js", str "c.js"⟩]).pullHistory
      = [⟨str "t", 1, 3⟩] := by
  refine ⟨rfl, rfl, rfl, rfl, by decide, by decide, by decide⟩

end RepoCloak
